import Mathlib

/-!
Verification development for the RPA engagement-session backend.

This file shallowly embeds the parts of the repository that the verified
properties talk about:

* the batched classification pipeline
  (`agents/target_identification_brain.py`);
* the target-list CSV loader (`Scraper/csv_loader.py`) and the result CSV
  exporter (`output/csv_export.py`), modelled at the level of parsed CSV
  rows (lists of cells), which is what `csv.reader`/`csv.writer` exchange
  with the code;
* the scraper-enabled scroll-session loop (`browser/hybrid.py`,
  `run_scraper_scroll_session`) together with the hashtag scrape pipeline
  (`browser/scraper_integration.py`), as a step function over an explicit
  session state driven by per-cycle environment events (random draws,
  wall-clock readings and browser-action outcomes);
* the infinite-mode supervisor (`ScrollingAutomation/scrolling.py`,
  `run_infinite_mode`), with the cooperative stop flag modelled as the
  instant `stopTime` from which every `should_stop()` poll reads true.

External collaborators (the Inference Service, the browser page, the file
system) are modelled as oracles or event data; everything downstream of
those boundaries is translated statement by statement from the Python
source.
-/

namespace RPA

/-! ### Python string-method helpers

`pyStrip` is `str.strip()` (whitespace at both ends), `pyLower` is
`str.lower()` restricted to the ASCII casing the code relies on,
`pyLstripAt` is `str.lstrip("@")` (drops ALL leading at-signs), and
`headIs` tests the first character (used for `startswith("#")` /
`startswith("@")` / `startswith("/")` on single-character prefixes). -/

def pyWhitespace (c : Char) : Bool :=
  c = ' ' || c = '\t' || c = '\n' || c = '\r' || c = '\x0b' || c = '\x0c'

def pyStrip (s : String) : String :=
  ⟨((s.data.dropWhile pyWhitespace).reverse.dropWhile pyWhitespace).reverse⟩

def pyLower (s : String) : String :=
  ⟨s.data.map Char.toLower⟩

def pyLstripAt (s : String) : String :=
  ⟨s.data.dropWhile (· = '@')⟩

def headIs (c : Char) (s : String) : Bool :=
  s.data.head? = some c

/-! ### Classification pipeline (`agents/target_identification_brain.py`)

`_parse_single_response` normalises every recognisable block to one of the
three labels (`IDEAL TARGET` / `POSSIBLE TARGET` / `NON-TARGET`), a numeric
score defaulting to 0, and bulleted signal/uncertainty lists; blocks with
no recognisable classification line are discarded.  The Inference Service
call (`self.llm.invoke`) composed with that parser is therefore modelled as
an oracle producing, per batch number, either a raised error (`Except.error`
with the exception text) or an arbitrary list of parsed blocks
(`Except.ok`), of any length — a garbage response parses to `[]`. -/

inductive Label
  | ideal
  | possible
  | non
deriving DecidableEq, Repr

/-- Sort rank used by `classify_accounts`: the `order` dict maps
IDEAL TARGET to 0, POSSIBLE TARGET to 1, NON-TARGET to 2. -/
def labelRank : Label → Nat
  | .ideal => 0
  | .possible => 1
  | .non => 2

def labelStr : Label → String
  | .ideal => "IDEAL TARGET"
  | .possible => "POSSIBLE TARGET"
  | .non => "NON-TARGET"

/-- One input profile dict: the keys the pipeline reads downstream
(`username`, `source`, `source_hashtag`); a missing key reads as the
default used at each `get` site. -/
structure UserRec where
  username : String
  source : String
  source_hashtag : String
deriving DecidableEq, Repr

/-- One parsed response block (output of `_parse_single_response`). -/
structure Parsed where
  classification : Label
  score : Nat
  signals_used : List String
  uncertainties : List String
deriving DecidableEq, Repr

/-- One classification result dict.  `username = ""` models a parsed block
that never had a username attached (block index beyond the batch input
count); `target_customer` is set to `"ideal"` in the final loop. -/
structure CResult where
  username : String
  source : String
  source_hashtag : String
  classification : Label
  score : Nat
  signals_used : List String
  uncertainties : List String
  target_customer : String
deriving DecidableEq, Repr

def BATCH_SIZE : Nat := 5

/-- The per-index attachment loop in `_filter_batch`:
`for i, res in enumerate(parsed): if i < len(users): attach username/source`.
A block whose index is beyond the batch keeps no username (reads as `""`)
and no source (reads as `"unknown"`). -/
def attachMeta (users : List UserRec) : List Parsed → Nat → List CResult
  | [], _ => []
  | p :: ps, i =>
      (match users[i]? with
       | some u =>
          ⟨pyLstripAt u.username, u.source, u.source_hashtag,
           p.classification, p.score, p.signals_used, p.uncertainties, ""⟩
       | none =>
          ⟨"", "unknown", "",
           p.classification, p.score, p.signals_used, p.uncertainties, ""⟩)
      :: attachMeta users ps (i + 1)

/-- The synthesized result built per user when the batch request raises:
lowest label, score 0, no signals, the exception text as the caveat. -/
def fallbackResult (err : String) (u : UserRec) : CResult :=
  ⟨pyLstripAt u.username, u.source, u.source_hashtag, .non, 0, [], [err], ""⟩

/-- `TargetIdentificationBrain._filter_batch`.  The oracle argument is the
outcome of `invoke` composed with `_parse_single_response` for this batch. -/
def filter_batch (oracle : Except String (List Parsed)) (users : List UserRec) :
    List CResult :=
  if users.isEmpty then []
  else
    match oracle with
    | .ok parsed => attachMeta users parsed 0
    | .error e => users.map (fallbackResult e)

/-- Fuel-indexed batching loop, `for i in range(0, len(users), BATCH_SIZE)`;
the fuel (instantiated with `users.length` in `chunks`) only makes the
recursion structural and never runs out on that instantiation. -/
def chunksF : Nat → List UserRec → List (List UserRec)
  | 0, _ => []
  | _, [] => []
  | fuel + 1, x :: xs =>
      (x :: xs).take BATCH_SIZE :: chunksF fuel ((x :: xs).drop BATCH_SIZE)

def chunks (l : List UserRec) : List (List UserRec) :=
  chunksF l.length l

/-- The batch loop of `classify_accounts`: batch number `k` is classified
with the oracle outcome for call `k`, and the per-batch result lists are
concatenated (`all_results.extend`). -/
def runBatches (oracle : Nat → Except String (List Parsed)) :
    Nat → List (List UserRec) → List CResult
  | _, [] => []
  | k, b :: bs => filter_batch (oracle k) b ++ runBatches oracle (k + 1) bs

/-- The `user_map` dict comprehension keyed by normalised username:
for duplicate keys the LAST occurrence wins, hence the reversed search. -/
def lookupUser (users : List UserRec) (uname : String) : Option UserRec :=
  users.reverse.find? (fun u => pyLstripAt u.username = uname)

/-- The metadata merge inside the final loop of `classify_accounts`:
`source`/`source_hashtag` are re-attached from `user_map` when the username
is known, and `target_customer` is set to `"ideal"` unconditionally. -/
def mergeMeta (users : List UserRec) (r : CResult) : CResult :=
  match lookupUser users r.username with
  | some u =>
      { r with source := u.source, source_hashtag := u.source_hashtag,
               target_customer := "ideal" }
  | none => { r with target_customer := "ideal" }

/-- The `seen`-set dedup loop of `classify_accounts`: a result with an
empty or already-seen username is dropped, every kept result gets the
metadata merge. -/
def finalize (users : List UserRec) : List CResult → List String → List CResult
  | [], _ => []
  | r :: rest, seen =>
      if r.username = "" ∨ r.username ∈ seen then finalize users rest seen
      else mergeMeta users r :: finalize users rest (r.username :: seen)

/-- The sort key comparison of
`final.sort(key=lambda x: (order.get(...), -(score or 0)))`:
`resLE a b` says the key of `a` is at most the key of `b`
(rank ascending, score descending within equal rank). -/
def resLE (a b : CResult) : Bool :=
  decide (labelRank a.classification < labelRank b.classification ∨
    (labelRank a.classification = labelRank b.classification ∧ b.score ≤ a.score))

/-- `classify_accounts` up to (but not including) the final sort. -/
def classify_pre (oracle : Nat → Except String (List Parsed))
    (users : List UserRec) : List CResult :=
  finalize users (runBatches oracle 0 (chunks users)) []

/-- `TargetIdentificationBrain.classify_accounts`.  Python `list.sort` is a
stable sort by the key; `List.mergeSort` with the same key comparison is
the stable sort, so the two agree. -/
def classify_accounts (oracle : Nat → Except String (List Parsed))
    (users : List UserRec) : List CResult :=
  if users.isEmpty then [] else (classify_pre oracle users).mergeSort resLE

/-- The dedup loop of the `classify_target_accounts` entry point: keep a
user iff its `lstrip("@")`-normalised username is nonempty and fresh. -/
def dedupUsers : List UserRec → List String → List UserRec
  | [], _ => []
  | u :: us, seen =>
      if pyLstripAt u.username ≠ "" ∧ pyLstripAt u.username ∉ seen then
        u :: dedupUsers us (pyLstripAt u.username :: seen)
      else dedupUsers us seen

/-- `classify_target_accounts` entry point. -/
def classify_target_accounts (oracle : Nat → Except String (List Parsed))
    (users : List UserRec) : List CResult :=
  if users.isEmpty then [] else classify_accounts oracle (dedupUsers users [])

/-- Normalised username list of a profile list. -/
def unames (users : List UserRec) : List String :=
  users.map (fun u => pyLstripAt u.username)

/-- `okLenGeB o b` says the oracle outcome for batch `b` either raised or
parsed to at least as many blocks as the batch has profiles. -/
def okLenGeB : Except String (List Parsed) → List UserRec → Bool
  | .error _, _ => true
  | .ok ps, b => b.length ≤ ps.length

/-- Decidable statement that every batch of `bs` is covered by the oracle
in the sense of `okLenGeB`. -/
def oracleCovers (oracle : Nat → Except String (List Parsed))
    (bs : List (List UserRec)) : Bool :=
  (List.range bs.length).all fun n => okLenGeB (oracle n) (bs.getD n [])

/-- Counting loop describing how many results the dedup loop of
`classify_accounts` keeps from a username sequence, given an initial
seen-set. -/
def countNew : List String → List String → Nat
  | _, [] => 0
  | seen, n :: ns =>
      if n = "" ∨ n ∈ seen then countNew seen ns
      else countNew (n :: seen) ns + 1

/-! ### Dataset I/O (`Scraper/csv_loader.py`, `output/csv_export.py`)

Modelled at the level of parsed CSV rows (lists of cell strings): the
Python `csv` module's reader/writer round-trip cell contents exactly, so
the file is represented by the row lists the code exchanges with it. -/

/-- `str[1:]` for the single-character prefix strips below. -/
def pyDropOne (s : String) : String :=
  ⟨s.data.drop 1⟩

structure LoadResult where
  kind : String
  targets : List String
  count : Nat
deriving DecidableEq, Repr

def hashtagHeaders : List String := ["hashtag", "hashtags", "#", "tag", "tags"]

def usernameHeaders : List String :=
  ["username", "usernames", "user", "users", "profile", "profiles"]

/-- The header-scanning loop of `load_targets_from_csv`: `elif` chains a
hashtag-name match (overwriting `hashtag_col`) with a username-name match
(overwriting `username_col`), so the LAST match of each kind wins. -/
def findCols : List String → Nat → Option Nat × Option Nat → Option Nat × Option Nat
  | [], _, acc => acc
  | h :: hs, i, (hcol, ucol) =>
      if h ∈ hashtagHeaders then findCols hs (i + 1) (some i, ucol)
      else if h ∈ usernameHeaders then findCols hs (i + 1) (hcol, some i)
      else findCols hs (i + 1) (hcol, ucol)

/-- Contribution of one row's hashtag cell: skipped when the column is out
of range or the stripped cell is empty, otherwise prefixed with `#` when
missing. -/
def hashtagCellTargets (col : Nat) (row : List String) : List String :=
  match row[col]? with
  | some cell =>
      if pyStrip cell ≠ "" then
        [if headIs '#' (pyStrip cell) then pyStrip cell else "#" ++ pyStrip cell]
      else []
  | none => []

/-- Contribution of one row's username cell: skipped when the column is out
of range or the stripped cell is empty, otherwise a single leading `@` is
removed. -/
def usernameCellTargets (col : Nat) (row : List String) : List String :=
  match row[col]? with
  | some cell =>
      if pyStrip cell ≠ "" then
        [if headIs '@' (pyStrip cell) then pyDropOne (pyStrip cell) else pyStrip cell]
      else []
  | none => []

/-- `load_targets_from_csv` over parsed rows (header first).  Returns
`none` for an empty file, an empty header row, or an empty target list
(the path/IO failure and delimiter-sniffing cases live outside the row
model). -/
def load_targets_from_csv (rows : List (List String)) : Option LoadResult :=
  match rows with
  | [] => none
  | header :: dataRows =>
    if header = [] then none
    else
      match findCols (header.map (fun h => pyLower (pyStrip h))) 0 (none, none) with
      | (some hcol, some ucol) =>
          let targets := (dataRows.map (fun row =>
            hashtagCellTargets hcol row ++ usernameCellTargets ucol row)).flatten
          if targets = [] then none
          else some ⟨"mixed", targets, targets.length⟩
      | (some hcol, none) =>
          let targets := (dataRows.map (hashtagCellTargets hcol)).flatten
          if targets = [] then none
          else some ⟨"hashtag", targets, targets.length⟩
      | (none, some ucol) =>
          let targets := (dataRows.map (usernameCellTargets ucol)).flatten
          if targets = [] then none
          else some ⟨"username", targets, targets.length⟩
      | (none, none) =>
          let targets := (dataRows.map (usernameCellTargets 0)).flatten
          if targets = [] then none
          else some ⟨"username", targets, targets.length⟩

def targetIdHeader : List String :=
  ["username", "source", "target_customer", "classification", "score",
   "signals_used", "uncertainties"]

def nicheHeader : List String :=
  ["username", "source", "target_customer", "niche", "relevance_score"]

/-- Python `" | ".join`. -/
def joinBar : List String → String
  | [] => ""
  | [x] => x
  | x :: y :: rest => x ++ " | " ++ joinBar (y :: rest)

/-- The export dedup loop: keep a result iff its username is nonempty and
fresh (first occurrence wins). -/
def dedupByUsername : List CResult → List String → List CResult
  | [], _ => []
  | r :: rest, seen =>
      if r.username ≠ "" ∧ r.username ∉ seen then
        r :: dedupByUsername rest (r.username :: seen)
      else dedupByUsername rest seen

/-- One data row written by `export_to_csv` for the target-identification
variant (the `ClassificationResult` shape always carries a
classification). -/
def resultRow (tc : String) (r : CResult) : List String :=
  [r.username, r.source, tc, labelStr r.classification, toString r.score,
   joinBar r.signals_used, joinBar r.uncertainties]

/-- `export_to_csv` at the row level: `use_target_id` is
`bool(results and "classification" in results[0])`, which in the typed
model is just nonemptiness, so an empty input writes only the niche-variant
header. -/
def export_to_csv_rows (results : List CResult) (tc : String) :
    List (List String) :=
  if results.isEmpty then [nicheHeader]
  else targetIdHeader :: (dedupByUsername results []).map (resultRow tc)

/-! ### Scrape pipeline (`browser/scraper_integration.py`, constants and
username validation shared from `browser/scraper.py`)

The browser page is the environment: which hrefs a hashtag page shows,
whether a search succeeds, and what the owner/commenter extraction
strategies return are event data.  Everything the Python code then does
with those values (caps, dedup sets, the visited-post set) is embedded
below.  The `examined` field is verification instrumentation recording
which post URLs a call examined, in order; it mirrors exactly the
`visited_posts.add(post_url)` call sites and is not a Python variable. -/

def MAX_ACCOUNTS_PER_SESSION : Nat := 30

def MAX_HASHTAGS_PER_SESSION : Nat := 3

def MAX_POSTS_PER_HASHTAG : Nat := 5

def MAX_COMMENTERS_PER_POST : Nat := 15

/-- Python `set.add` on the visited-post set, represented as the list of
its elements in insertion order (the code only tests membership and takes
the size). -/
def setAdd (s : List String) (x : String) : List String :=
  if x ∈ s then s else s ++ [x]

def isPrefixL : List Char → List Char → Bool
  | [], _ => true
  | _ :: _, [] => false
  | c :: cs, d :: ds => c = d && isPrefixL cs ds

def containsSub (pat : List Char) : List Char → Bool
  | [] => isPrefixL pat []
  | c :: cs => isPrefixL pat (c :: cs) || containsSub pat cs

/-- Python substring test `pat in s`. -/
def containsStr (pat s : String) : Bool :=
  containsSub pat.data s.data

/-- The post-link collection loop in `scrape_hashtags_sync`: walk at most
twice the per-hashtag post cap of candidate hrefs, keep those containing
`/p/` (an absent href reads as `""`), absolutise leading-slash hrefs,
dedup, and break once the cap is reached (checked after each append). -/
def collectPostUrlsGo : List String → List String → List String
  | [], acc => acc
  | h :: rest, acc =>
      if h ≠ "" ∧ containsStr "/p/" h then
        let full := if headIs '/' h then "https://www.instagram.com" ++ h else h
        if full ∈ acc then collectPostUrlsGo rest acc
        else
          if MAX_POSTS_PER_HASHTAG ≤ (acc ++ [full]).length then acc ++ [full]
          else collectPostUrlsGo rest (acc ++ [full])
      else collectPostUrlsGo rest acc

def collectPostUrls (hrefs : List String) : List String :=
  collectPostUrlsGo (hrefs.take (MAX_POSTS_PER_HASHTAG * 2)) []

structure ScrapedUser where
  username : String
  source : String
  source_hashtag : String
  target_customer : String
deriving DecidableEq, Repr

/-- Outcome of examining one post page: `owner` is the result of the
ordered owner-extraction strategies (`none` also covers a falsy owner and
a navigation error caught by the per-post `try`, which collect nothing);
`commenters` is the list `_extract_commenters` returned when an owner was
found. -/
structure PostEvent where
  owner : Option String
  commenters : List String
deriving DecidableEq, Repr

/-- Environment data for one sampled hashtag of a scrape call: `ok` is
false when the search failed, the page redirected to login, or the
per-hashtag `try` raised before the post loop; `tag` is the sampled
hashtag; `hrefs` the candidate post hrefs on the page; `posts` the
outcomes for the examined posts in order. -/
structure HashtagEvent where
  ok : Bool
  tag : String
  hrefs : List String
  posts : List PostEvent
deriving DecidableEq, Repr

/-- Accumulator of `scrape_hashtags_sync`: the shared visited-post set,
the per-call `seen` username set, the `collected` counter, the collected
users, and the instrumentation list of post URLs examined this call. -/
structure ScrapeAcc where
  visited : List String
  seen : List String
  collected : Nat
  users : List ScrapedUser
  examined : List String
deriving DecidableEq, Repr

/-- The commenter loop of one post: each commenter not yet seen this call
is recorded with source `commenter`. -/
def addCommenters (tc tag : String) : List String → ScrapeAcc → ScrapeAcc
  | [], acc => acc
  | c :: cs, acc =>
      addCommenters tc tag cs
        (if c ∈ acc.seen then acc
         else { acc with seen := c :: acc.seen,
                         users := acc.users ++ [⟨c, "commenter", tag, tc⟩],
                         collected := acc.collected + 1 })

/-- Owner and commenter processing of one examined post; the commenter
extraction runs whenever an owner was found, even if the owner itself was
already seen. -/
def processPost (tc tag : String) (acc : ScrapeAcc) (pe : PostEvent) :
    ScrapeAcc :=
  match pe.owner with
  | none => acc
  | some ow =>
      addCommenters tc tag pe.commenters
        (if ow ∈ acc.seen then acc
         else { acc with seen := ow :: acc.seen,
                         users := acc.users ++ [⟨ow, "post_owner", tag, tc⟩],
                         collected := acc.collected + 1 })

/-- The post loop of one hashtag: stops at the call-level account cap;
otherwise the post is marked visited FIRST — before the extraction outcome
is looked at — so a failed extraction is never retried. -/
def processPosts (tc tag : String) :
    ScrapeAcc → List String → List PostEvent → ScrapeAcc
  | acc, [], _ => acc
  | acc, _ :: _, [] => acc
  | acc, url :: urls, pe :: pes =>
      if MAX_ACCOUNTS_PER_SESSION ≤ acc.collected then acc
      else
        processPosts tc tag
          (processPost tc tag
            { acc with visited := setAdd acc.visited url,
                       examined := acc.examined ++ [url] } pe)
          urls pes

/-- One hashtag of `scrape_hashtags_sync`: a failed search / login
redirect / raised error leaves the state untouched (`continue`); otherwise
the collected post links already present in the visited set are filtered
out and only the new ones are examined. -/
def processHashtag (tc : String) (acc : ScrapeAcc) (he : HashtagEvent) :
    ScrapeAcc :=
  if ¬ he.ok then acc
  else
    processPosts tc he.tag acc
      ((collectPostUrls he.hrefs).filter (· ∉ acc.visited)) he.posts

def scrapeHashtagsGo (tc : String) : ScrapeAcc → List HashtagEvent → ScrapeAcc
  | acc, [] => acc
  | acc, he :: hes =>
      if MAX_ACCOUNTS_PER_SESSION ≤ acc.collected then acc
      else scrapeHashtagsGo tc (processHashtag tc acc he) hes

/-- `scrape_hashtags_sync` against a given visited-post set, driven by the
per-hashtag events (the random hashtag sample and all page outcomes). -/
def scrapeHashtags (tc : String) (visited : List String)
    (hes : List HashtagEvent) : ScrapeAcc :=
  scrapeHashtagsGo tc ⟨visited, [], 0, [], []⟩ hes

/-! ### Session orchestrator (`browser/hybrid.py`,
`run_scraper_scroll_session`, with the explore branch shared verbatim with
`run_scroll_session`) -/

def MIN_TIME_BETWEEN_EXPLORES : Nat := 30

def MIN_TIME_BETWEEN_SCRAPER : Nat := 120

def MIN_TIME_BETWEEN_VISITS : Nat := 30

/-- Explore-phase environment data: the `time.time()` reading at the gate
check, the chance draw, the boolean returned by
`perform_search_and_explore`, and the `time.time()` reading that would be
stored into `last_explore_time`. -/
structure ExploreEvent where
  tCheck : Nat
  chance : Bool
  success : Bool
  tDone : Nat
deriving DecidableEq, Repr

/-- The explore branch, character for character identical in
`run_scroll_session` and `run_scraper_scroll_session`: state is the pair
(explore counter, last-explore timestamp).  Counter and cooldown timestamp
are updated ONLY when `perform_search_and_explore` returned True. -/
def explorePhase (targets : List String) (st : Nat × Nat) (e : ExploreEvent) :
    Nat × Nat :=
  if targets ≠ [] ∧ MIN_TIME_BETWEEN_EXPLORES < e.tCheck - st.2 ∧ e.chance then
    if e.success then (st.1 + 1, e.tDone) else st
  else st

/-- Outcome of one profile visit: `notFound` when `perform_search`
returned False or raised before the counter increment; `found likes` when
the profile page was reached (the likes gathered while scrolling it are
added to the session's like counter; a later exception adds none, which
`found 0` also covers). -/
inductive VisitOutcome
  | notFound
  | found (likes : Nat)
deriving DecidableEq, Repr

/-- Environment data for one cycle of `run_scraper_scroll_session`:
the loop-condition clock reading and stop poll, the random-like outcome,
then per branch the clock reading at its gate check, its chance draw and
its action outcomes.  `newUsernames` is the username list returned by
`run_scraper_pipeline_sync` (the Ollama analysis, CSV export and re-read
of the scraped users — an external oracle). -/
structure CycleEvent where
  tLoop : Nat
  stop : Bool
  likeOk : Bool
  tScrCheck : Nat
  scrChance : Bool
  configOk : Bool
  hashtags : List HashtagEvent
  tScrStart : Nat
  newUsernames : List String
  tVisitCheck : Nat
  visitChance : Bool
  visitOutcome : VisitOutcome
  tVisitDone : Nat
  explore : ExploreEvent
deriving DecidableEq, Repr

/-- State of one `run_scraper_scroll_session` run.  `scraped` is the
pending-visit list (never shrinks; `visitIndex` is the FIFO dequeue
pointer, so the pending queue is `scraped.drop visitIndex`); `visited` is
the shared visited-post set; `examinedAll` and `visitLog` are
verification instrumentation recording every examined post URL and every
dequeued username, in order. -/
structure ScraperState where
  scrolls : Nat
  likes : Nat
  explores : Nat
  scraperRuns : Nat
  profilesVisited : Nat
  lastExplore : Nat
  lastScraper : Nat
  lastVisit : Nat
  scraped : List String
  visitIndex : Nat
  visited : List String
  examinedAll : List String
  visitLog : List String
deriving DecidableEq, Repr

/-- Initial state of a session started at clock `t0` (all counters zero,
all cooldown anchors at the start time, empty collections). -/
def initScraperState (t0 : Nat) : ScraperState :=
  ⟨0, 0, 0, 0, 0, t0, t0, t0, [], 0, [], [], []⟩

/-- The queue-append loop after a scraper run: add only new unique
usernames, breaking once the cap is reached. -/
def appendCapped (cap : Nat) : List String → List String → List String
  | scraped, [] => scraped
  | scraped, n :: rest =>
      if cap ≤ scraped.length then scraped
      else if n ∈ scraped then appendCapped cap scraped rest
      else appendCapped cap (scraped ++ [n]) rest

/-- The scroll + random-like prefix of every cycle. -/
def scrollLikePhase (s : ScraperState) (e : CycleEvent) : ScraperState :=
  { s with scrolls := s.scrolls + 1,
           likes := if e.likeOk then s.likes + 1 else s.likes }

/-- The scraper-trigger branch: gated on queue below cap, cooldown over
120 s and the chance draw; updates the run counter and cooldown timestamp
unconditionally once fired, runs the scrape against the shared
visited-post set (an unknown target key collects nothing), and appends
the pipeline's usernames up to the cap. -/
def scraperPhase (cap : Nat) (tc : String) (s : ScraperState) (e : CycleEvent) :
    ScraperState :=
  if s.scraped.length < cap ∧
      MIN_TIME_BETWEEN_SCRAPER < e.tScrCheck - s.lastScraper ∧ e.scrChance then
    let res := if e.configOk then scrapeHashtags tc s.visited e.hashtags
               else ⟨s.visited, [], 0, [], []⟩
    { s with scraperRuns := s.scraperRuns + 1,
             lastScraper := e.tScrStart,
             visited := res.visited,
             examinedAll := s.examinedAll ++ res.examined,
             scraped := appendCapped cap s.scraped e.newUsernames }
  else s

/-- The visit branch: dequeues exactly one username FIFO (`visit_index`
advances unconditionally; `visitLog` records the dequeued identity), the
`profiles_visited` counter advances ONLY when the search found the
profile, and the visit cooldown timestamp is updated unconditionally at
the end of the branch. -/
def visitPhase (s : ScraperState) (e : CycleEvent) : ScraperState :=
  if s.visitIndex < s.scraped.length ∧
      MIN_TIME_BETWEEN_VISITS < e.tVisitCheck - s.lastVisit ∧ e.visitChance then
    let s1 : ScraperState :=
      { s with visitIndex := s.visitIndex + 1,
               visitLog := s.visitLog ++ [s.scraped.getD s.visitIndex ""] }
    let s2 : ScraperState :=
      match e.visitOutcome with
      | .notFound => s1
      | .found k => { s1 with profilesVisited := s1.profilesVisited + 1,
                              likes := s1.likes + k }
    { s2 with lastVisit := e.tVisitDone }
  else s

/-- Explore branch applied to the scraper-session state. -/
def sessionExplore (targets : List String) (s : ScraperState) (e : CycleEvent) :
    ScraperState :=
  { s with explores := (explorePhase targets (s.explores, s.lastExplore) e.explore).1,
           lastExplore := (explorePhase targets (s.explores, s.lastExplore) e.explore).2 }

/-- One full cycle of `run_scraper_scroll_session`, in the source's branch
order: scroll + like, scraper trigger, profile visit, explore. -/
def scraperStep (cap : Nat) (tc : String) (targets : List String)
    (s : ScraperState) (e : CycleEvent) : ScraperState :=
  sessionExplore targets
    (visitPhase (scraperPhase cap tc (scrollLikePhase s e) e) e) e

/-- The session loop `while time.time() - start_time < session_duration
and not should_stop()`, driven by a finite list of cycle events. -/
def scraperRun (dur cap : Nat) (tc : String) (targets : List String) (t0 : Nat) :
    ScraperState → List CycleEvent → ScraperState
  | s, [] => s
  | s, e :: es =>
      if e.tLoop - t0 < dur ∧ ¬ e.stop then
        scraperRun dur cap tc targets t0 (scraperStep cap tc targets s e) es
      else s

/-! ### Infinite-mode supervisor (`ScrollingAutomation/scrolling.py`,
`run_infinite_mode`) -/

structure SessStats where
  scrolls : Nat
  likes : Nat
  explores : Nat
deriving DecidableEq, Repr

structure TotalStats where
  sessions : Nat
  scrolls : Nat
  likes : Nat
  explores : Nat
deriving DecidableEq, Repr

/-- Environment data for one iteration of the supervisor loop: the two
`randint` draws, the wall time the session run consumed, the stats dict it
returned, and its continue flag (`not should_stop()` at session end). -/
structure InfSessionEvent where
  activeDur : Nat
  restDur : Nat
  sessionTime : Nat
  stats : SessStats
  shouldContinue : Bool
deriving DecidableEq, Repr

/-- The rest loop `while time.time() - rest_start < rest_duration and not
should_stop(): sleep(30)`.  The stop flag reads true from `stopTime` on
(it is only ever set, never cleared); each sleep advances the clock by
30.  The fuel argument (instantiated with `restDur`) only makes the
recursion structural: every iteration advances the clock by 30 ≥ 1, so
`restDur` iterations always suffice. -/
def restLoop (stopTime restStart restDur : Nat) : Nat → Nat → Nat
  | 0, clock => clock
  | fuel + 1, clock =>
      if clock - restStart < restDur ∧ ¬ stopTime ≤ clock then
        restLoop stopTime restStart restDur fuel (clock + 30)
      else clock

/-- `run_infinite_mode`, clock-instrumented: every `should_stop()` poll
reads `stopTime ≤ clock`; a session run advances the clock by the event's
`sessionTime` and yields the event's stats and continue flag; the event
list bounds how many sessions the environment can supply.  Returns the
cumulative stats (only scrolls / likes / explores are summed, plus the
session count) and the final clock. -/
def run_infinite_mode (stopTime : Nat) :
    Nat → TotalStats → List InfSessionEvent → TotalStats × Nat
  | clock, acc, [] => (acc, clock)
  | clock, acc, e :: es =>
      if stopTime ≤ clock then (acc, clock)
      else
        let acc2 : TotalStats :=
          ⟨acc.sessions + 1, acc.scrolls + e.stats.scrolls,
           acc.likes + e.stats.likes, acc.explores + e.stats.explores⟩
        if ¬ e.shouldContinue ∨ stopTime ≤ clock + e.sessionTime then
          (acc2, clock + e.sessionTime)
        else
          if stopTime ≤ restLoop stopTime (clock + e.sessionTime) e.restDur
              e.restDur (clock + e.sessionTime) then
            (acc2, restLoop stopTime (clock + e.sessionTime) e.restDur
              e.restDur (clock + e.sessionTime))
          else
            run_infinite_mode stopTime
              (restLoop stopTime (clock + e.sessionTime) e.restDur
                e.restDur (clock + e.sessionTime)) acc2 es

/-! ### Dataset I/O lemmas -/

lemma flatten_map_singleton {α β : Type} (f : α → β) :
    ∀ l : List α, ((l.map (fun a => [f a])).flatten) = l.map f := by
  intro l
  induction l with
  | nil => rfl
  | cons x xs ih => simp [ih]

lemma dedupByUsername_sub :
    ∀ (l : List CResult) (seen : List String) (r : CResult),
      r ∈ dedupByUsername l seen → r ∈ l := by
  intro l
  induction l with
  | nil => intro seen r h; cases h
  | cons x xs ih =>
    intro seen r h
    by_cases hx : x.username ≠ "" ∧ x.username ∉ seen
    · rw [dedupByUsername, if_pos hx] at h
      rcases List.mem_cons.mp h with rfl | h2
      · exact List.mem_cons_self _ _
      · exact List.mem_cons_of_mem _ (ih _ r h2)
    · rw [dedupByUsername, if_neg hx] at h
      exact List.mem_cons_of_mem _ (ih _ r h)

lemma dedupByUsername_names :
    ∀ (l : List CResult) (seen : List String) (u : String),
      u ∈ (dedupByUsername l seen).map CResult.username ↔
        (u ∈ l.map CResult.username ∧ u ≠ "" ∧ u ∉ seen) := by
  intro l
  induction l with
  | nil => intro seen u; simp [dedupByUsername]
  | cons r rest ih =>
    intro seen u
    by_cases h : r.username ≠ "" ∧ r.username ∉ seen
    · rw [dedupByUsername, if_pos h]
      simp only [List.map_cons, List.mem_cons]
      constructor
      · rintro (rfl | hm)
        · exact ⟨Or.inl rfl, h.1, h.2⟩
        · obtain ⟨h1, h2, h3⟩ := (ih (r.username :: seen) u).mp hm
          exact ⟨Or.inr h1, h2, fun hc => h3 (List.mem_cons_of_mem _ hc)⟩
      · rintro ⟨hm | hm, hne, hns⟩
        · exact Or.inl hm
        · by_cases hu : u = r.username
          · exact Or.inl hu
          · refine Or.inr ((ih _ u).mpr ⟨hm, hne, ?_⟩)
            intro hc
            rcases List.mem_cons.mp hc with hc | hc
            · exact hu hc
            · exact hns hc
    · rw [dedupByUsername, if_neg h]
      rw [ih seen u]
      simp only [List.map_cons, List.mem_cons]
      constructor
      · rintro ⟨hm, hne, hns⟩
        exact ⟨Or.inr hm, hne, hns⟩
      · rintro ⟨hm | hm, hne, hns⟩
        · push_neg at h
          rcases eq_or_ne r.username "" with he | he
          · exact absurd (hm.trans he) hne
          · exact absurd (hm ▸ h he) hns
        · exact ⟨hm, hne, hns⟩

lemma usernameCellTargets_resultRow (tc : String) (r : CResult)
    (h1 : r.username ≠ "") (h2 : pyStrip r.username = r.username)
    (h3 : headIs '@' r.username = false) :
    usernameCellTargets 0 (resultRow tc r) = [r.username] := by
  show (if pyStrip r.username ≠ "" then
      [if headIs '@' (pyStrip r.username) then pyDropOne (pyStrip r.username)
       else pyStrip r.username]
    else []) = [r.username]
  rw [h2, if_pos h1, h3]
  rfl

lemma load_export (results : List CResult) (tc : String)
    (hne : results ≠ [])
    (hnorm : ∀ r ∈ results, r.username ≠ "" ∧ pyStrip r.username = r.username ∧
        headIs '@' r.username = false) :
    load_targets_from_csv (export_to_csv_rows results tc) =
      some ⟨"username", (dedupByUsername results []).map CResult.username,
        ((dedupByUsername results []).map CResult.username).length⟩ := by
  rw [export_to_csv_rows, if_neg (by simpa [List.isEmpty_iff] using hne)]
  have hcols : findCols (targetIdHeader.map (fun h => pyLower (pyStrip h))) 0
      (none, none) = (none, some 0) := by decide
  have hrows : ((dedupByUsername results []).map (resultRow tc)).map
      (usernameCellTargets 0) =
      (dedupByUsername results []).map (fun r => [r.username]) := by
    rw [List.map_map]
    apply List.map_congr_left
    intro r hr
    obtain ⟨hr1, hr2, hr3⟩ := hnorm r (dedupByUsername_sub results [] r hr)
    exact usernameCellTargets_resultRow tc r hr1 hr2 hr3
  have hne2 : (dedupByUsername results []).map CResult.username ≠ [] := by
    cases results with
    | nil => exact absurd rfl hne
    | cons r rest =>
      have h1 := (hnorm r (List.mem_cons_self _ _)).1
      rw [dedupByUsername, if_pos ⟨h1, by simp⟩]
      simp
  rw [load_targets_from_csv]
  rw [if_neg (by decide)]
  simp only [hcols]
  rw [hrows, flatten_map_singleton]
  rw [if_neg hne2]

/-- C3.  The claim as frozen is FALSE on the code (see
`C3_counterexample`): only the empty CELL is skipped, the other column of
the same row still contributes, so row `,bob` contributes `bob`.  Amended
claim proved here: loading the mixed CSV with header `hashtag,username`
and data rows `#travel,alice` / `,bob` / `#food,` yields the mixed kind
and exactly FOUR identities, in order `#travel`, `alice`, `bob`, `#food`. -/
theorem C3_mixed_load :
    load_targets_from_csv [["hashtag", "username"], ["#travel", "alice"],
        ["", "bob"], ["#food", ""]] =
      some ⟨"mixed", ["#travel", "alice", "bob", "#food"], 4⟩ := by
  decide

/-- Counterexample to C3 as frozen: the same CSV does NOT load to the
three identities `#travel`, `alice`, `#food` — the `,bob` row's username
cell is nonempty and is loaded too. -/
theorem C3_counterexample :
    (load_targets_from_csv [["hashtag", "username"], ["#travel", "alice"],
        ["", "bob"], ["#food", ""]]).map LoadResult.targets ≠
      some ["#travel", "alice", "#food"] := by
  decide

/-- C8.  The claim as frozen is FALSE on the code (see
`C8_counterexample`): re-loading strips whitespace and one leading `@`
from each identity, so an identity such as `@bob` (non-empty) comes back
as `bob` and the identity set changes.  Amended claim proved here: for
every NONEMPTY result list whose identities are nonempty, invariant under
whitespace stripping and not starting with `@`, exporting and re-loading
yields exactly the deduplicated identity list, hence the same identity set
as the exported list. -/
theorem C8_roundtrip :
    ∀ (results : List CResult) (tc : String),
      results ≠ [] →
      (∀ r ∈ results, r.username ≠ "" ∧ pyStrip r.username = r.username ∧
          headIs '@' r.username = false) →
      (load_targets_from_csv (export_to_csv_rows results tc)).map
          LoadResult.targets =
        some ((dedupByUsername results []).map CResult.username) ∧
      ∀ u, u ∈ (dedupByUsername results []).map CResult.username ↔
          u ∈ results.map CResult.username := by
  intro results tc hne hnorm
  constructor
  · rw [load_export results tc hne hnorm]
    rfl
  · intro u
    rw [dedupByUsername_names]
    constructor
    · rintro ⟨hm, _, _⟩
      exact hm
    · intro hm
      refine ⟨hm, ?_, by simp⟩
      rcases List.mem_map.mp hm with ⟨r, hr, rfl⟩
      exact (hnorm r hr).1

/-- Witness for `C8_roundtrip` at a concrete input: two distinct
identities with a duplicate, exported and re-loaded. -/
theorem C8_roundtrip_witness :
    (load_targets_from_csv (export_to_csv_rows
        [⟨"alice", "post_owner", "cars", .ideal, 80, [], [], ""⟩,
         ⟨"bob", "commenter", "cars", .non, 0, [], [], ""⟩,
         ⟨"alice", "commenter", "cars", .non, 0, [], [], ""⟩] "car")).map
        LoadResult.targets =
      some ((dedupByUsername
        [⟨"alice", "post_owner", "cars", .ideal, 80, [], [], ""⟩,
         ⟨"bob", "commenter", "cars", .non, 0, [], [], ""⟩,
         ⟨"alice", "commenter", "cars", .non, 0, [], [], ""⟩] []).map
          CResult.username) ∧
    (("alice" : String) ∈ (dedupByUsername
        [⟨"alice", "post_owner", "cars", .ideal, 80, [], [], ""⟩,
         ⟨"bob", "commenter", "cars", .non, 0, [], [], ""⟩,
         ⟨"alice", "commenter", "cars", .non, 0, [], [], ""⟩] []).map
          CResult.username ↔
      ("alice" : String) ∈ ([⟨"alice", "post_owner", "cars", .ideal, 80, [], [], ""⟩,
         ⟨"bob", "commenter", "cars", .non, 0, [], [], ""⟩,
         ⟨"alice", "commenter", "cars", .non, 0, [], [], ""⟩] : List CResult).map
          CResult.username) :=
  ⟨(C8_roundtrip _ "car" (by decide) (by decide)).1,
   (C8_roundtrip _ "car" (by decide) (by decide)).2 "alice"⟩

/-- Counterexample to C8 as frozen: the single exported identity `@bob` is
non-empty, yet the re-loaded identity set is the singleton `bob`, which
does not contain `@bob` — the identity sets differ. -/
theorem C8_counterexample :
    (load_targets_from_csv (export_to_csv_rows
        [⟨"@bob", "post_owner", "", .non, 0, [], [], ""⟩] "car")).map
        LoadResult.targets = some ["bob"] ∧
    ("@bob" : String) ∉ (["bob"] : List String) := by
  decide

/-! ### Classification pipeline lemmas -/

lemma mergeMeta_username (users : List UserRec) (r : CResult) :
    (mergeMeta users r).username = r.username := by
  unfold mergeMeta
  cases lookupUser users r.username <;> rfl

lemma chunksF_flatten :
    ∀ (fuel : Nat) (l : List UserRec), l.length ≤ fuel →
      (chunksF fuel l).flatten = l := by
  intro fuel
  induction fuel with
  | zero =>
    intro l hl
    have : l = [] := List.eq_nil_of_length_eq_zero (Nat.le_zero.mp hl)
    subst this
    rfl
  | succ n ih =>
    intro l hl
    cases l with
    | nil => rfl
    | cons x xs =>
      have hdrop : ((x :: xs).drop BATCH_SIZE).length ≤ n := by
        simp only [List.length_drop, List.length_cons] at *
        simp only [BATCH_SIZE]
        omega
      simp only [chunksF, List.flatten_cons, ih _ hdrop, List.take_append_drop]

lemma chunks_flatten (l : List UserRec) : (chunks l).flatten = l :=
  chunksF_flatten l.length l le_rfl

lemma attachMeta_names (users : List UserRec)
    (h : ∀ n ∈ unames users, n ≠ "") :
    ∀ (ps : List Parsed) (i : Nat),
      ((attachMeta users ps i).map CResult.username).filter (· ≠ "") =
        ((unames users).drop i).take ps.length := by
  intro ps
  induction ps with
  | nil =>
    intro i
    simp [attachMeta]
  | cons p ps ih =>
    intro i
    by_cases hi : i < users.length
    · have hu : users[i]? = some users[i] := List.getElem?_eq_getElem hi
      have hmem : pyLstripAt users[i].username ∈ unames users := by
        exact List.mem_map_of_mem _ (users.getElem_mem hi)
      have hne := h _ hmem
      have hilen : i < (unames users).length := by
        simpa [unames] using hi
      rw [List.drop_eq_getElem_cons hilen]
      have hget : (unames users)[i] = pyLstripAt users[i].username := by
        simp [unames]
      simp only [attachMeta, hu, List.map_cons, List.length_cons, hget]
      rw [List.filter_cons_of_pos (by simpa using hne)]
      rw [List.take_succ_cons, ih (i + 1)]
    · have hu : users[i]? = none := List.getElem?_eq_none (Nat.le_of_not_lt hi)
      have hdrop : (unames users).drop i = [] := by
        apply List.drop_eq_nil_of_le
        simpa [unames] using Nat.le_of_not_lt hi
      have hdrop1 : (unames users).drop (i + 1) = [] := by
        apply List.drop_eq_nil_of_le
        have := Nat.le_of_not_lt hi
        simp only [unames, List.length_map]
        omega
      simp only [attachMeta, hu, List.map_cons]
      rw [List.filter_cons_of_neg (by simp)]
      rw [ih (i + 1), hdrop, hdrop1]
      simp

lemma filter_batch_names (o : Except String (List Parsed)) (b : List UserRec)
    (hne : ∀ n ∈ unames b, n ≠ "") (hlen : okLenGeB o b = true) :
    ((filter_batch o b).map CResult.username).filter (· ≠ "") = unames b := by
  cases b with
  | nil => cases o <;> simp [filter_batch, unames]
  | cons u us =>
    cases o with
    | error e =>
      have hmap : ((u :: us).map (fallbackResult e)).map CResult.username =
          unames (u :: us) := by
        simp [unames, fallbackResult, List.map_map, Function.comp]
      simp only [filter_batch, List.isEmpty_cons, Bool.false_eq_true, if_false]
      rw [hmap]
      rw [List.filter_eq_self.mpr]
      intro a ha
      simpa using hne a ha
    | ok ps =>
      have hlen' : (u :: us).length ≤ ps.length := by
        simpa [okLenGeB] using hlen
      simp only [filter_batch, List.isEmpty_cons, Bool.false_eq_true, if_false]
      rw [attachMeta_names (u :: us) hne ps 0, List.drop_zero]
      apply List.take_of_length_le
      simpa [unames] using hlen'

lemma runBatches_names (oracle : Nat → Except String (List Parsed)) :
    ∀ (bs : List (List UserRec)) (k : Nat),
      (∀ b ∈ bs, ∀ n ∈ unames b, n ≠ "") →
      (∀ n b, bs[n]? = some b → okLenGeB (oracle (k + n)) b = true) →
      ((runBatches oracle k bs).map CResult.username).filter (· ≠ "") =
        unames bs.flatten := by
  intro bs
  induction bs with
  | nil =>
    intro k _ _
    simp [runBatches, unames]
  | cons b rest ih =>
    intro k hne hok
    have h0 : okLenGeB (oracle k) b = true := by
      simpa using hok 0 b (by simp)
    have hrest : ∀ n bb, rest[n]? = some bb →
        okLenGeB (oracle (k + 1 + n)) bb = true := by
      intro n bb hbb
      have := hok (n + 1) bb (by simpa using hbb)
      simpa [Nat.add_assoc, Nat.add_comm 1 n] using this
    simp only [runBatches, List.map_append, List.filter_append]
    rw [filter_batch_names _ _ (hne b (by simp)) h0]
    rw [ih (k + 1) (fun bb hb => hne bb (by simp [hb])) hrest]
    simp [unames, List.flatten_cons]

lemma finalize_length (users : List UserRec) :
    ∀ (l : List CResult) (seen : List String),
      (finalize users l seen).length = countNew seen (l.map CResult.username) := by
  intro l
  induction l with
  | nil => intro seen; rfl
  | cons r rest ih =>
    intro seen
    by_cases h : r.username = "" ∨ r.username ∈ seen
    · simp [finalize, countNew, h, ih]
    · simp [finalize, countNew, h, ih]

lemma countNew_eq_length :
    ∀ (names seen : List String),
      (names.filter (· ≠ "")).Nodup →
      (∀ m ∈ names, m ≠ "" → m ∉ seen) →
      countNew seen names = (names.filter (· ≠ "")).length := by
  intro names
  induction names with
  | nil => intro seen _ _; rfl
  | cons n ns ih =>
    intro seen hnd hdisj
    by_cases hn : n = ""
    · subst hn
      rw [List.filter_cons_of_neg (by simp)] at hnd ⊢
      rw [countNew, if_pos (Or.inl rfl)]
      exact ih seen hnd (fun m hm => hdisj m (by simp [hm]))
    · have hns : n ∉ seen := hdisj n (by simp) hn
      rw [List.filter_cons_of_pos (by simpa using hn)] at hnd ⊢
      have hnotin : n ∉ ns.filter (· ≠ "") := (List.nodup_cons.mp hnd).1
      have hnd' : (ns.filter (· ≠ "")).Nodup := (List.nodup_cons.mp hnd).2
      rw [countNew, if_neg (by simp [hn, hns])]
      rw [ih (n :: seen) hnd' ?hdisj]
      · simp
      case hdisj =>
        intro m hm hme
        simp only [List.mem_cons, not_or]
        refine ⟨?_, hdisj m (by simp [hm]) hme⟩
        intro heq
        exact hnotin (heq ▸ List.mem_filter.mpr ⟨hm, by simpa using hme⟩)

lemma oracleCovers_spec (oracle : Nat → Except String (List Parsed))
    (bs : List (List UserRec)) (h : oracleCovers oracle bs = true) :
    ∀ n b, bs[n]? = some b → okLenGeB (oracle n) b = true := by
  intro n b hb
  have hn : n < bs.length := by
    rcases List.getElem?_eq_some_iff.mp hb with ⟨hlt, _⟩
    exact hlt
  have hall := (List.all_eq_true.mp h) n (List.mem_range.mpr hn)
  rw [List.getD_eq_getElem?_getD, hb] at hall
  simpa using hall

lemma classify_accounts_length (oracle : Nat → Except String (List Parsed))
    (users : List UserRec)
    (hnd : (unames users).Nodup) (hne : ∀ n ∈ unames users, n ≠ "")
    (hor : oracleCovers oracle (chunks users) = true) :
    (classify_accounts oracle users).length = users.length := by
  unfold classify_accounts
  by_cases hu : users.isEmpty
  · rw [if_pos hu]
    cases users with
    | nil => rfl
    | cons a l => simp at hu
  · rw [if_neg hu]
    rw [(List.mergeSort_perm _ _).length_eq]
    unfold classify_pre
    rw [finalize_length]
    have hb : ∀ b ∈ chunks users, ∀ n ∈ unames b, n ≠ "" := by
      intro b hbmem n hn
      apply hne
      rcases List.mem_map.mp hn with ⟨u0, hu0, rfl⟩
      have : u0 ∈ (chunks users).flatten :=
        List.mem_flatten.mpr ⟨b, hbmem, hu0⟩
      rw [chunks_flatten] at this
      exact List.mem_map_of_mem _ this
    have hnames := runBatches_names oracle (chunks users) 0 hb
        (fun n b hb2 => by simpa using oracleCovers_spec oracle _ hor n b hb2)
    rw [chunks_flatten] at hnames
    rw [countNew_eq_length _ [] (by rw [hnames]; exact hnd) (by intro m _ _; simp)]
    rw [hnames]
    simp [unames]

lemma dedupUsers_spec :
    ∀ (us : List UserRec) (seen : List String),
      (unames (dedupUsers us seen)).Nodup ∧
        ∀ n ∈ unames (dedupUsers us seen), n ≠ "" ∧ n ∉ seen := by
  intro us
  induction us with
  | nil => intro seen; simp [dedupUsers, unames]
  | cons u rest ih =>
    intro seen
    by_cases h : pyLstripAt u.username ≠ "" ∧ pyLstripAt u.username ∉ seen
    · rw [dedupUsers, if_pos h]
      obtain ⟨ihnd, ihmem⟩ := ih (pyLstripAt u.username :: seen)
      constructor
      · simp only [unames, List.map_cons]
        refine List.nodup_cons.mpr ⟨?_, ihnd⟩
        intro hmem
        exact (ihmem _ hmem).2 (by simp)
      · intro n hn
        simp only [unames, List.map_cons, List.mem_cons] at hn
        rcases hn with rfl | hn
        · exact ⟨h.1, h.2⟩
        · obtain ⟨h1, h2⟩ := ihmem n hn
          exact ⟨h1, fun hc => h2 (by simp [hc])⟩
    · rw [dedupUsers, if_neg h]
      exact ih seen

lemma attachMeta_mem (users : List UserRec) :
    ∀ (ps : List Parsed) (i : Nat) (r : CResult), r ∈ attachMeta users ps i →
      r.username = "" ∨ r.username ∈ unames users := by
  intro ps
  induction ps with
  | nil => intro i r h; cases h
  | cons p ps ih =>
    intro i r h
    rw [attachMeta] at h
    rcases List.mem_cons.mp h with rfl | h2
    · cases hu : users[i]? with
      | some u =>
        right
        rcases List.getElem?_eq_some_iff.mp hu with ⟨hlt, heq⟩
        show pyLstripAt u.username ∈ unames users
        exact List.mem_map_of_mem _ (heq ▸ users.getElem_mem hlt)
      | none =>
        left
        rfl
    · exact ih (i + 1) r h2

lemma runBatches_mem (oracle : Nat → Except String (List Parsed)) :
    ∀ (bs : List (List UserRec)) (k : Nat) (r : CResult),
      r ∈ runBatches oracle k bs →
      r.username = "" ∨ r.username ∈ unames bs.flatten := by
  intro bs
  induction bs with
  | nil => intro k r h; cases h
  | cons b rest ih =>
    intro k r h
    have hsplit : unames (b :: rest).flatten = unames b ++ unames rest.flatten := by
      simp [unames, List.flatten_cons]
    rcases List.mem_append.mp h with h1 | h2
    · unfold filter_batch at h1
      by_cases hb : b.isEmpty
      · rw [if_pos hb] at h1
        cases h1
      · rw [if_neg hb] at h1
        cases o : oracle k with
        | ok ps =>
          rw [o] at h1
          rcases attachMeta_mem b ps 0 r h1 with h | h
          · exact Or.inl h
          · exact Or.inr (by rw [hsplit]; exact List.mem_append_left _ h)
        | error e =>
          rw [o] at h1
          rcases List.mem_map.mp h1 with ⟨u, hu, rfl⟩
          refine Or.inr ?_
          rw [hsplit]
          exact List.mem_append_left _ (List.mem_map_of_mem _ hu)
    · rcases ih (k + 1) r h2 with h | h
      · exact Or.inl h
      · exact Or.inr (by rw [hsplit]; exact List.mem_append_right _ h)

lemma finalize_facts (users : List UserRec) :
    ∀ (l : List CResult) (seen : List String),
      (∀ r ∈ finalize users l seen,
          r.username ≠ "" ∧ r.username ∉ seen ∧
            ∃ r0 ∈ l, r.username = r0.username) ∧
      ((finalize users l seen).map CResult.username).Nodup := by
  intro l
  induction l with
  | nil => intro seen; simp [finalize]
  | cons r rest ih =>
    intro seen
    by_cases h : r.username = "" ∨ r.username ∈ seen
    · rw [finalize, if_pos h]
      obtain ⟨ihmem, ihnd⟩ := ih seen
      refine ⟨?_, ihnd⟩
      intro r2 h2
      obtain ⟨h1, h2', r0, hr0, he⟩ := ihmem r2 h2
      exact ⟨h1, h2', r0, List.mem_cons_of_mem _ hr0, he⟩
    · rw [finalize, if_neg h]
      push_neg at h
      obtain ⟨ihmem, ihnd⟩ := ih (r.username :: seen)
      constructor
      · intro r2 h2
        rcases List.mem_cons.mp h2 with rfl | h3
        · rw [mergeMeta_username]
          exact ⟨h.1, h.2, r, List.mem_cons_self _ _, rfl⟩
        · obtain ⟨h1, h2', r0, hr0, he⟩ := ihmem r2 h3
          refine ⟨h1, fun hc => h2' (List.mem_cons_of_mem _ hc), r0,
            List.mem_cons_of_mem _ hr0, he⟩
      · simp only [List.map_cons, mergeMeta_username]
        refine List.nodup_cons.mpr ⟨?_, ihnd⟩
        intro hmem
        rcases List.mem_map.mp hmem with ⟨r2, hr2, he⟩
        exact (ihmem r2 hr2).2.1 (by rw [he]; simp)

lemma resLE_trans :
    ∀ a b c : CResult, resLE a b = true → resLE b c = true → resLE a c = true := by
  intro a b c
  simp only [resLE, decide_eq_true_eq]
  omega

lemma resLE_total : ∀ a b : CResult, (resLE a b || resLE b a) = true := by
  intro a b
  simp only [resLE, Bool.or_eq_true, decide_eq_true_eq]
  omega

/-- C1.  The claim as frozen is FALSE on the code (see
`C1_counterexample`): the per-batch fallback synthesis happens only when
the inference call RAISES; a response that comes back as text but parses
to fewer blocks than the batch has profiles silently drops the uncovered
profiles.  Amended claim proved here: (1) for every classification call in
which each batch either raises or parses to at least as many blocks as the
batch has identities, the number of returned results equals the number of
deduplicated input identities; (2) every identity of a batch whose request
raises receives a synthesized result with the lowest-relevance label
NON-TARGET, score 0, empty evidence, and the error text as the caveat. -/
theorem C1_fallback_count :
    (∀ (oracle : Nat → Except String (List Parsed)) (users : List UserRec),
        oracleCovers oracle (chunks (dedupUsers users [])) = true →
        (classify_target_accounts oracle users).length =
          (dedupUsers users []).length) ∧
    ∀ (e : String) (b : List UserRec), b ≠ [] →
      (filter_batch (Except.error e) b).map
          (fun r => (r.classification, r.score, r.signals_used, r.uncertainties)) =
        b.map (fun _ => (Label.non, 0, ([] : List String), [e])) := by
  constructor
  · intro oracle users hor
    unfold classify_target_accounts
    by_cases hu : users.isEmpty
    · rw [if_pos hu]
      rw [List.isEmpty_iff.mp hu]
      rfl
    · rw [if_neg hu]
      obtain ⟨hnd, hmem⟩ := dedupUsers_spec users []
      exact classify_accounts_length oracle _ hnd (fun n hn => (hmem n hn).1) hor
  · intro e b hb
    unfold filter_batch
    rw [if_neg (by simpa [List.isEmpty_iff] using hb)]
    rw [List.map_map]
    have hmap : ∀ l : List UserRec,
        l.map ((fun (r : CResult) =>
            (r.classification, r.score, r.signals_used, r.uncertainties)) ∘
          fallbackResult e) =
        l.map (fun _ => (Label.non, 0, ([] : List String), [e])) := by
      intro l
      induction l with
      | nil => rfl
      | cons x xs ih => simp only [List.map_cons, ih]; rfl
    exact hmap b

/-- Witness for `C1_fallback_count` at a concrete input: a single profile
and an oracle that always raises `"timeout"`. -/
theorem C1_fallback_count_witness :
    (oracleCovers (fun _ => Except.error "timeout")
        (chunks (dedupUsers [⟨"alice", "post_owner", "cars"⟩] [])) = true) ∧
    (classify_target_accounts (fun _ => Except.error "timeout")
        [⟨"alice", "post_owner", "cars"⟩]).length =
      (dedupUsers [⟨"alice", "post_owner", "cars"⟩] []).length ∧
    (([⟨"alice", "post_owner", "cars"⟩] : List UserRec) ≠ []) ∧
    (filter_batch (Except.error "timeout") [⟨"alice", "post_owner", "cars"⟩]).map
        (fun r => (r.classification, r.score, r.signals_used, r.uncertainties)) =
      ([⟨"alice", "post_owner", "cars"⟩] : List UserRec).map
        (fun _ => (Label.non, 0, ([] : List String), ["timeout"])) :=
  ⟨by decide,
   C1_fallback_count.1 (fun _ => Except.error "timeout")
     [⟨"alice", "post_owner", "cars"⟩] (by decide),
   by decide,
   C1_fallback_count.2 "timeout" [⟨"alice", "post_owner", "cars"⟩] (by decide)⟩

/-- Counterexample to C1 as frozen: one deduplicated input identity, and an
Inference Service that returns text in which no block parses (the parsed
block list is empty) WITHOUT raising.  The pipeline returns 0 results
instead of 1 — the identity is silently dropped, no fallback result is
synthesized. -/
theorem C1_counterexample :
    (classify_target_accounts (fun _ => Except.ok [])
        [⟨"alice", "post_owner", "cars"⟩]).length ≠
      (dedupUsers [⟨"alice", "post_owner", "cars"⟩] []).length := by
  have h1 : classify_target_accounts (fun _ => Except.ok [])
      [⟨"alice", "post_owner", "cars"⟩] =
      (([] : List CResult).mergeSort resLE) := by rfl
  rw [h1, List.mergeSort_nil]
  decide

/-- C10: every result returned by the classification pipeline carries an
identity from the deduplicated input list (parsed blocks beyond the batch
input count receive no identity and are discarded by the final loop), and
each identity occurs at most once in the output. -/
theorem C10_identity_conservation :
    ∀ (oracle : Nat → Except String (List Parsed)) (users : List UserRec),
      (∀ r ∈ classify_target_accounts oracle users,
          r.username ∈ unames (dedupUsers users [])) ∧
      ((classify_target_accounts oracle users).map CResult.username).Nodup := by
  intro oracle users
  unfold classify_target_accounts
  by_cases hu : users.isEmpty
  · rw [if_pos hu]
    simp
  · rw [if_neg hu]
    set users' := dedupUsers users [] with husers
    unfold classify_accounts
    by_cases hu' : users'.isEmpty
    · rw [if_pos hu']
      simp
    · rw [if_neg hu']
      have hperm := List.mergeSort_perm (classify_pre oracle users') resLE
      constructor
      · intro r hr
        have hr' : r ∈ classify_pre oracle users' := hperm.mem_iff.mp hr
        unfold classify_pre at hr'
        obtain ⟨hne, _, r0, hr0, he⟩ :=
          (finalize_facts users' _ []).1 r hr'
        rcases runBatches_mem oracle (chunks users') 0 r0 hr0 with h | h
        · exact absurd (he.trans h) hne
        · rw [chunks_flatten] at h
          exact he ▸ h
      · have hmapperm := hperm.map CResult.username
        exact hmapperm.symm.nodup ((finalize_facts users' _ []).2)

/-- C7: the classification output is sorted ascending by label rank (IDEAL
TARGET, then POSSIBLE TARGET, then NON-TARGET) and, within equal label,
descending by score; the sort is stable — for any label/score class, the
output restricted to that class is exactly the pre-sort (dedup) list
restricted to that class, so equal-key results keep their relative order. -/
theorem C7_stable_ranking :
    ∀ (oracle : Nat → Except String (List Parsed)) (users : List UserRec),
      List.Pairwise (fun a b => resLE a b = true) (classify_accounts oracle users) ∧
      ∀ (c : Label) (s : Nat),
        (classify_accounts oracle users).filter
            (fun r => decide (r.classification = c ∧ r.score = s)) =
          (classify_pre oracle users).filter
            (fun r => decide (r.classification = c ∧ r.score = s)) := by
  intro oracle users
  unfold classify_accounts
  by_cases hu : users.isEmpty
  · rw [if_pos hu]
    rw [List.isEmpty_iff.mp hu]
    exact ⟨List.Pairwise.nil, fun c s => rfl⟩
  · rw [if_neg hu]
    refine ⟨List.sorted_mergeSort resLE_trans resLE_total _, ?_⟩
    intro c s
    set p : CResult → Bool :=
      fun r => decide (r.classification = c ∧ r.score = s) with hp
    set pre := classify_pre oracle users with hpre
    have hpair : List.Pairwise (fun a b => resLE a b = true) (pre.filter p) := by
      apply List.pairwise_of_forall_mem_list
      intro a ha b hb
      have ha' := List.of_mem_filter ha
      have hb' := List.of_mem_filter hb
      rw [hp] at ha' hb'
      simp only [decide_eq_true_eq] at ha' hb'
      simp only [resLE, decide_eq_true_eq]
      right
      rw [ha'.1, hb'.1, ha'.2, hb'.2]
      exact ⟨rfl, le_rfl⟩
    have hsub : List.Sublist (pre.filter p) (pre.mergeSort resLE) :=
      List.sublist_mergeSort resLE_trans resLE_total hpair (List.filter_sublist pre)
    have hsub2 : List.Sublist ((pre.filter p).filter p)
        ((pre.mergeSort resLE).filter p) := hsub.filter p
    have hself : (pre.filter p).filter p = pre.filter p :=
      List.filter_eq_self.mpr (fun a ha => List.of_mem_filter ha)
    rw [hself] at hsub2
    have hlen : (pre.filter p).length = ((pre.mergeSort resLE).filter p).length :=
      (((List.mergeSort_perm pre resLE).filter p).length_eq).symm
    exact (hsub2.eq_of_length hlen).symm

/-! ### Session orchestrator lemmas and claims -/

/-- C2.  The claim as frozen is FALSE on the code (see
`C2_counterexample`): `explore_count` and `last_explore_time` are updated
inside `if perform_search_and_explore(...)`, so a FAILED search consumes
neither the counter nor the cooldown.  Amended claim proved here: in every
cycle in which the explore phase fires (non-empty target list, cooldown
elapsed, chance draw succeeded), the counter and cooldown timestamp are
updated iff the explore attempt succeeded, and are left untouched when it
failed. -/
theorem C2_explore_success_only :
    ∀ (targets : List String) (ex le : Nat) (e : ExploreEvent),
      targets ≠ [] → MIN_TIME_BETWEEN_EXPLORES < e.tCheck - le →
      e.chance = true →
      (e.success = true → explorePhase targets (ex, le) e = (ex + 1, e.tDone)) ∧
      (e.success = false → explorePhase targets (ex, le) e = (ex, le)) := by
  intro targets ex le e h1 h2 h3
  constructor
  · intro hs
    rw [explorePhase, if_pos ⟨h1, h2, h3⟩, if_pos hs]
  · intro hs
    rw [explorePhase, if_pos ⟨h1, h2, h3⟩, if_neg (by simp [hs])]

/-- Witness for `C2_explore_success_only` at a concrete input. -/
theorem C2_explore_success_only_witness :
    ((["#travel"] : List String) ≠ [] ∧
      MIN_TIME_BETWEEN_EXPLORES <
        (⟨31, true, true, 40⟩ : ExploreEvent).tCheck - 0 ∧
      (⟨31, true, true, 40⟩ : ExploreEvent).chance = true) ∧
    explorePhase ["#travel"] (0, 0) ⟨31, true, true, 40⟩ = (0 + 1, 40) :=
  ⟨⟨by decide, by decide, rfl⟩,
   (C2_explore_success_only ["#travel"] 0 0 ⟨31, true, true, 40⟩
     (by decide) (by decide) rfl).1 rfl⟩

/-- Counterexample to C2 as frozen: the explore phase fires (non-empty
target list, cooldown of 30 s elapsed at clock 31, chance draw true) but
the search fails, and NEITHER the explore counter (still 0) NOR the
cooldown timestamp (still 0, not 40) is updated. -/
theorem C2_counterexample :
    ((["#travel"] : List String) ≠ [] ∧
      MIN_TIME_BETWEEN_EXPLORES < (31 : Nat) - 0 ∧
      (⟨31, true, false, 40⟩ : ExploreEvent).chance = true) ∧
    explorePhase ["#travel"] (0, 0) ⟨31, true, false, 40⟩ = (0, 0) := by
  decide

/-- C4.  The claim as frozen is FALSE on the code (see
`C4_counterexample`): `profiles_visited += 1` sits in the
search-succeeded branch, so a visit whose `perform_search` fails advances
the queue and the cooldown but NOT the counter.  Amended claim proved
here: whenever the visit phase fires (queue non-empty at the visit index,
cooldown elapsed, chance draw succeeded), exactly one identity — the one
at the FIFO front pointer — is dequeued, the pending list itself is
unchanged, the visit cooldown timestamp is updated unconditionally, and
`profiles_visited` advances exactly when the searched identity was
found. -/
theorem C4_visit_phase :
    ∀ (s : ScraperState) (e : CycleEvent),
      s.visitIndex < s.scraped.length →
      MIN_TIME_BETWEEN_VISITS < e.tVisitCheck - s.lastVisit →
      e.visitChance = true →
      (visitPhase s e).visitIndex = s.visitIndex + 1 ∧
      (visitPhase s e).visitLog = s.visitLog ++ [s.scraped.getD s.visitIndex ""] ∧
      (visitPhase s e).scraped = s.scraped ∧
      (visitPhase s e).lastVisit = e.tVisitDone ∧
      (visitPhase s e).profilesVisited =
        (match e.visitOutcome with
         | .notFound => s.profilesVisited
         | .found _ => s.profilesVisited + 1) := by
  intro s e h1 h2 h3
  rw [visitPhase, if_pos ⟨h1, h2, h3⟩]
  cases e.visitOutcome with
  | notFound => exact ⟨rfl, rfl, rfl, rfl, rfl⟩
  | found k => exact ⟨rfl, rfl, rfl, rfl, rfl⟩

/-- Witness for `C4_visit_phase` at a concrete input (a found visit). -/
theorem C4_visit_phase_witness :
    ((0 : Nat) < (["alice"] : List String).length ∧
      MIN_TIME_BETWEEN_VISITS < (31 : Nat) - 0 ∧ true = true) ∧
    (visitPhase ⟨0, 0, 0, 0, 0, 0, 0, 0, ["alice"], 0, [], [], []⟩
        ⟨0, false, false, 0, false, false, [], 0, [], 31, true, .found 2, 40,
         ⟨0, false, false, 0⟩⟩).visitIndex = 0 + 1 ∧
    (visitPhase ⟨0, 0, 0, 0, 0, 0, 0, 0, ["alice"], 0, [], [], []⟩
        ⟨0, false, false, 0, false, false, [], 0, [], 31, true, .found 2, 40,
         ⟨0, false, false, 0⟩⟩).lastVisit = 40 :=
  ⟨⟨by decide, by decide, rfl⟩,
   (C4_visit_phase ⟨0, 0, 0, 0, 0, 0, 0, 0, ["alice"], 0, [], [], []⟩
      ⟨0, false, false, 0, false, false, [], 0, [], 31, true, .found 2, 40,
       ⟨0, false, false, 0⟩⟩ (by decide) (by decide) rfl).1,
   (C4_visit_phase ⟨0, 0, 0, 0, 0, 0, 0, 0, ["alice"], 0, [], [], []⟩
      ⟨0, false, false, 0, false, false, [], 0, [], 31, true, .found 2, 40,
       ⟨0, false, false, 0⟩⟩ (by decide) (by decide) rfl).2.2.2.1⟩

/-- Counterexample to C4 as frozen: the visit phase fires (queue
`["alice"]` non-empty at index 0, cooldown elapsed at clock 31, chance
draw true) and the search does NOT find the identity; the identity is
dequeued (index advances to 1) and the cooldown is updated, but
`profiles_visited` stays 0 instead of being updated unconditionally. -/
theorem C4_counterexample :
    ((0 : Nat) < (["alice"] : List String).length ∧
      MIN_TIME_BETWEEN_VISITS < (31 : Nat) - 0 ∧ true = true) ∧
    (visitPhase ⟨0, 0, 0, 0, 0, 0, 0, 0, ["alice"], 0, [], [], []⟩
        ⟨0, false, false, 0, false, false, [], 0, [], 31, true, .notFound, 40,
         ⟨0, false, false, 0⟩⟩).profilesVisited = 0 ∧
    (visitPhase ⟨0, 0, 0, 0, 0, 0, 0, 0, ["alice"], 0, [], [], []⟩
        ⟨0, false, false, 0, false, false, [], 0, [], 31, true, .notFound, 40,
         ⟨0, false, false, 0⟩⟩).visitIndex = 1 ∧
    (visitPhase ⟨0, 0, 0, 0, 0, 0, 0, 0, ["alice"], 0, [], [], []⟩
        ⟨0, false, false, 0, false, false, [], 0, [], 31, true, .notFound, 40,
         ⟨0, false, false, 0⟩⟩).lastVisit = 40 := by
  decide

lemma appendCapped_extends (cap : Nat) :
    ∀ (ns scraped : List String),
      ∃ t, appendCapped cap scraped ns = scraped ++ t := by
  intro ns
  induction ns with
  | nil => intro scraped; exact ⟨[], by simp [appendCapped]⟩
  | cons n rest ih =>
    intro scraped
    rw [appendCapped]
    by_cases h1 : cap ≤ scraped.length
    · rw [if_pos h1]
      exact ⟨[], by simp⟩
    · rw [if_neg h1]
      by_cases h2 : n ∈ scraped
      · rw [if_pos h2]
        exact ih scraped
      · rw [if_neg h2]
        obtain ⟨t, ht⟩ := ih (scraped ++ [n])
        exact ⟨[n] ++ t, by rw [ht, List.append_assoc]⟩

lemma appendCapped_le (cap : Nat) :
    ∀ (ns scraped : List String), scraped.length ≤ cap →
      (appendCapped cap scraped ns).length ≤ cap := by
  intro ns
  induction ns with
  | nil => intro scraped h; simpa [appendCapped] using h
  | cons n rest ih =>
    intro scraped h
    rw [appendCapped]
    by_cases h1 : cap ≤ scraped.length
    · rw [if_pos h1]
      exact h
    · rw [if_neg h1]
      by_cases h2 : n ∈ scraped
      · rw [if_pos h2]
        exact ih scraped h
      · rw [if_neg h2]
        apply ih
        simp only [List.length_append, List.length_cons, List.length_nil]
        omega

lemma scraperPhase_inv (cap : Nat) (tc : String) (s : ScraperState)
    (e : CycleEvent)
    (h : s.scraped.length ≤ cap ∧ s.visitIndex ≤ s.scraped.length ∧
      s.profilesVisited ≤ s.visitIndex) :
    (scraperPhase cap tc s e).scraped.length ≤ cap ∧
      (scraperPhase cap tc s e).visitIndex ≤
        (scraperPhase cap tc s e).scraped.length ∧
      (scraperPhase cap tc s e).profilesVisited ≤
        (scraperPhase cap tc s e).visitIndex := by
  rw [scraperPhase]
  by_cases hg : s.scraped.length < cap ∧
      MIN_TIME_BETWEEN_SCRAPER < e.tScrCheck - s.lastScraper ∧ e.scrChance
  · rw [if_pos hg]
    obtain ⟨t, ht⟩ := appendCapped_extends cap e.newUsernames s.scraped
    refine ⟨appendCapped_le cap e.newUsernames s.scraped h.1, ?_, h.2.2⟩
    show s.visitIndex ≤ (appendCapped cap s.scraped e.newUsernames).length
    rw [ht]
    simp only [List.length_append]
    omega
  · rw [if_neg hg]
    exact h

lemma visitPhase_inv (s : ScraperState) (e : CycleEvent)
    (h : s.scraped.length ≤ cap ∧ s.visitIndex ≤ s.scraped.length ∧
      s.profilesVisited ≤ s.visitIndex) :
    (visitPhase s e).scraped.length ≤ cap ∧
      (visitPhase s e).visitIndex ≤ (visitPhase s e).scraped.length ∧
      (visitPhase s e).profilesVisited ≤ (visitPhase s e).visitIndex := by
  rw [visitPhase]
  by_cases hg : s.visitIndex < s.scraped.length ∧
      MIN_TIME_BETWEEN_VISITS < e.tVisitCheck - s.lastVisit ∧ e.visitChance
  · rw [if_pos hg]
    cases e.visitOutcome with
    | notFound =>
      refine ⟨h.1, ?_, ?_⟩
      · show s.visitIndex + 1 ≤ s.scraped.length
        exact hg.1
      · show s.profilesVisited ≤ s.visitIndex + 1
        have := h.2.2
        omega
    | found k =>
      refine ⟨h.1, ?_, ?_⟩
      · show s.visitIndex + 1 ≤ s.scraped.length
        exact hg.1
      · show s.profilesVisited + 1 ≤ s.visitIndex + 1
        omega
  · rw [if_neg hg]
    exact h

lemma scraperStep_inv (cap : Nat) (tc : String) (targets : List String)
    (s : ScraperState) (e : CycleEvent)
    (h : s.scraped.length ≤ cap ∧ s.visitIndex ≤ s.scraped.length ∧
      s.profilesVisited ≤ s.visitIndex) :
    (scraperStep cap tc targets s e).scraped.length ≤ cap ∧
      (scraperStep cap tc targets s e).visitIndex ≤
        (scraperStep cap tc targets s e).scraped.length ∧
      (scraperStep cap tc targets s e).profilesVisited ≤
        (scraperStep cap tc targets s e).visitIndex := by
  have h1 : (scrollLikePhase s e).scraped.length ≤ cap ∧
      (scrollLikePhase s e).visitIndex ≤ (scrollLikePhase s e).scraped.length ∧
      (scrollLikePhase s e).profilesVisited ≤ (scrollLikePhase s e).visitIndex := h
  have h2 := scraperPhase_inv cap tc (scrollLikePhase s e) e h1
  have h3 := visitPhase_inv (scraperPhase cap tc (scrollLikePhase s e) e) e h2
  exact h3

lemma scraperRun_inv (dur cap : Nat) (tc : String) (targets : List String)
    (t0 : Nat) :
    ∀ (evs : List CycleEvent) (s : ScraperState),
      s.scraped.length ≤ cap ∧ s.visitIndex ≤ s.scraped.length ∧
        s.profilesVisited ≤ s.visitIndex →
      (scraperRun dur cap tc targets t0 s evs).scraped.length ≤ cap ∧
        (scraperRun dur cap tc targets t0 s evs).visitIndex ≤
          (scraperRun dur cap tc targets t0 s evs).scraped.length ∧
        (scraperRun dur cap tc targets t0 s evs).profilesVisited ≤
          (scraperRun dur cap tc targets t0 s evs).visitIndex := by
  intro evs
  induction evs with
  | nil => intro s h; exact h
  | cons e es ih =>
    intro s h
    rw [scraperRun]
    by_cases hc : e.tLoop - t0 < dur ∧ ¬ e.stop
    · rw [if_pos hc]
      exact ih _ (scraperStep_inv cap tc targets s e h)
    · rw [if_neg hc]
      exact h

/-- C6: at every point of a `run_scraper_scroll_session` run, the pending
visit queue (`scraped.drop visitIndex`) never exceeds the configured cap —
in fact the whole cumulative enqueued list never does — and
`profiles_visited` never exceeds the cumulative number of identities ever
enqueued (the `scraped` list never shrinks).  States are quantified over
every event list, hence over every reachable point of every run. -/
theorem C6_queue_caps :
    ∀ (dur cap : Nat) (tc : String) (targets : List String) (t0 : Nat)
      (evs : List CycleEvent),
      (scraperRun dur cap tc targets t0 (initScraperState t0) evs).scraped.length -
          (scraperRun dur cap tc targets t0 (initScraperState t0) evs).visitIndex ≤
        cap ∧
      (scraperRun dur cap tc targets t0 (initScraperState t0) evs).scraped.length ≤
        cap ∧
      (scraperRun dur cap tc targets t0 (initScraperState t0) evs).profilesVisited ≤
        (scraperRun dur cap tc targets t0 (initScraperState t0) evs).scraped.length := by
  intro dur cap tc targets t0 evs
  have h := scraperRun_inv dur cap tc targets t0 evs (initScraperState t0)
    (by refine ⟨?_, ?_, ?_⟩ <;> simp [initScraperState])
  exact ⟨by omega, h.1, by omega⟩

lemma addCommenters_fields (tc tag : String) :
    ∀ (cs : List String) (acc : ScrapeAcc),
      (addCommenters tc tag cs acc).visited = acc.visited ∧
        (addCommenters tc tag cs acc).examined = acc.examined := by
  intro cs
  induction cs with
  | nil => intro acc; exact ⟨rfl, rfl⟩
  | cons c cs ih =>
    intro acc
    rw [addCommenters]
    by_cases h : c ∈ acc.seen
    · rw [if_pos h]
      exact ih acc
    · rw [if_neg h]
      exact ih _

lemma processPost_fields (tc tag : String) (acc : ScrapeAcc) (pe : PostEvent) :
    (processPost tc tag acc pe).visited = acc.visited ∧
      (processPost tc tag acc pe).examined = acc.examined := by
  cases ho : pe.owner with
  | none => simp [processPost, ho]
  | some ow =>
    simp only [processPost, ho]
    by_cases h : ow ∈ acc.seen
    · rw [if_pos h]
      exact addCommenters_fields tc tag pe.commenters acc
    · rw [if_neg h]
      exact addCommenters_fields tc tag pe.commenters _

lemma mem_setAdd_self (s : List String) (x : String) : x ∈ setAdd s x := by
  rw [setAdd]
  by_cases h : x ∈ s
  · rw [if_pos h]
    exact h
  · rw [if_neg h]
    simp

lemma processPosts_extends (tc tag : String) :
    ∀ (urls : List String) (pes : List PostEvent) (acc : ScrapeAcc),
      ∃ t, (processPosts tc tag acc urls pes).visited = acc.visited ++ t := by
  intro urls
  induction urls with
  | nil => intro pes acc; exact ⟨[], by simp [processPosts]⟩
  | cons url urls ih =>
    intro pes acc
    cases pes with
    | nil => exact ⟨[], by simp [processPosts]⟩
    | cons pe pes =>
      rw [processPosts]
      by_cases hc : MAX_ACCOUNTS_PER_SESSION ≤ acc.collected
      · rw [if_pos hc]
        exact ⟨[], by simp⟩
      · rw [if_neg hc]
        obtain ⟨t, ht⟩ := ih pes (processPost tc tag
          { acc with visited := setAdd acc.visited url,
                     examined := acc.examined ++ [url] } pe)
        obtain ⟨hv, _⟩ := processPost_fields tc tag
          { acc with visited := setAdd acc.visited url,
                     examined := acc.examined ++ [url] } pe
        rw [ht, hv]
        show ∃ t2, setAdd acc.visited url ++ t = acc.visited ++ t2
        rw [setAdd]
        by_cases hm : url ∈ acc.visited
        · rw [if_pos hm]
          exact ⟨t, rfl⟩
        · rw [if_neg hm]
          exact ⟨[url] ++ t, by rw [List.append_assoc]⟩

lemma processPosts_spec (tc tag : String) :
    ∀ (urls : List String) (pes : List PostEvent) (acc : ScrapeAcc),
      urls.Nodup → (∀ u ∈ urls, u ∉ acc.visited) →
      ∃ D, (processPosts tc tag acc urls pes).visited = acc.visited ++ D ∧
        (processPosts tc tag acc urls pes).examined = acc.examined ++ D ∧
        D.Nodup ∧ ∀ d ∈ D, d ∈ urls := by
  intro urls
  induction urls with
  | nil =>
    intro pes acc _ _
    exact ⟨[], by simp [processPosts], by simp [processPosts], List.nodup_nil,
      by simp⟩
  | cons url urls ih =>
    intro pes acc hnd hdis
    cases pes with
    | nil =>
      exact ⟨[], by simp [processPosts], by simp [processPosts], List.nodup_nil,
        by simp⟩
    | cons pe pes =>
      rw [processPosts]
      by_cases hc : MAX_ACCOUNTS_PER_SESSION ≤ acc.collected
      · rw [if_pos hc]
        exact ⟨[], by simp, by simp, List.nodup_nil, by simp⟩
      · rw [if_neg hc]
        have hurl : url ∉ acc.visited := hdis url (List.mem_cons_self _ _)
        have hset : setAdd acc.visited url = acc.visited ++ [url] := by
          rw [setAdd, if_neg hurl]
        obtain ⟨hv, he⟩ := processPost_fields tc tag
          { acc with visited := setAdd acc.visited url,
                     examined := acc.examined ++ [url] } pe
        have hdis2 : ∀ u ∈ urls, u ∉ (processPost tc tag
            { acc with visited := setAdd acc.visited url,
                       examined := acc.examined ++ [url] } pe).visited := by
          intro u hu
          rw [hv]
          show u ∉ setAdd acc.visited url
          rw [hset]
          intro hmem
          rcases List.mem_append.mp hmem with hmem | hmem
          · exact hdis u (List.mem_cons_of_mem _ hu) hmem
          · rw [List.mem_singleton] at hmem
            exact (List.nodup_cons.mp hnd).1 (hmem ▸ hu)
        obtain ⟨D, hD1, hD2, hD3, hD4⟩ :=
          ih pes _ (List.nodup_cons.mp hnd).2 hdis2
        refine ⟨url :: D, ?_, ?_, ?_, ?_⟩
        · rw [hD1, hv]
          show setAdd acc.visited url ++ D = acc.visited ++ (url :: D)
          rw [hset, List.append_assoc, List.singleton_append]
        · rw [hD2, he]
          show acc.examined ++ [url] ++ D = acc.examined ++ (url :: D)
          rw [List.append_assoc, List.singleton_append]
        · refine List.nodup_cons.mpr ⟨?_, hD3⟩
          intro hmem
          exact (List.nodup_cons.mp hnd).1 (hD4 url hmem)
        · intro d hd
          rcases List.mem_cons.mp hd with rfl | hd
          · exact List.mem_cons_self _ _
          · exact List.mem_cons_of_mem _ (hD4 d hd)

lemma collectPostUrlsGo_nodup :
    ∀ (hrefs acc : List String), acc.Nodup → (collectPostUrlsGo hrefs acc).Nodup := by
  intro hrefs
  induction hrefs with
  | nil => intro acc h; exact h
  | cons h0 rest ih =>
    intro acc h
    rw [collectPostUrlsGo]
    by_cases h1 : h0 ≠ "" ∧ containsStr "/p/" h0
    · rw [if_pos h1]
      by_cases h2 : (if headIs '/' h0 then "https://www.instagram.com" ++ h0
          else h0) ∈ acc
      · rw [if_pos h2]
        exact ih acc h
      · rw [if_neg h2]
        have hnd : (acc ++ [if headIs '/' h0 then "https://www.instagram.com" ++ h0
            else h0]).Nodup := by
          refine List.Nodup.append h (List.nodup_singleton _) ?_
          intro a ha hb
          rw [List.mem_singleton] at hb
          exact h2 (hb ▸ ha)
        by_cases h3 : MAX_POSTS_PER_HASHTAG ≤
            (acc ++ [if headIs '/' h0 then "https://www.instagram.com" ++ h0
              else h0]).length
        · rw [if_pos h3]
          exact hnd
        · rw [if_neg h3]
          exact ih _ hnd
    · rw [if_neg h1]
      exact ih acc h

lemma processHashtag_spec (tc : String) (acc : ScrapeAcc) (he : HashtagEvent) :
    ∃ D, (processHashtag tc acc he).visited = acc.visited ++ D ∧
      (processHashtag tc acc he).examined = acc.examined ++ D ∧
      D.Nodup ∧ ∀ d ∈ D, d ∉ acc.visited := by
  rw [processHashtag]
  by_cases hok : ¬ he.ok
  · rw [if_pos hok]
    exact ⟨[], by simp, by simp, List.nodup_nil, by simp⟩
  · rw [if_neg hok]
    have hnd : ((collectPostUrls he.hrefs).filter (· ∉ acc.visited)).Nodup := by
      apply List.Nodup.filter
      rw [collectPostUrls]
      exact collectPostUrlsGo_nodup _ [] List.nodup_nil
    have hdis : ∀ u ∈ (collectPostUrls he.hrefs).filter (· ∉ acc.visited),
        u ∉ acc.visited := by
      intro u hu
      simpa using List.of_mem_filter hu
    obtain ⟨D, h1, h2, h3, h4⟩ :=
      processPosts_spec tc he.tag _ he.posts acc hnd hdis
    exact ⟨D, h1, h2, h3, fun d hd => hdis d (h4 d hd)⟩

lemma scrapeHashtagsGo_spec (tc : String) :
    ∀ (hes : List HashtagEvent) (acc : ScrapeAcc),
      ∃ D, (scrapeHashtagsGo tc acc hes).visited = acc.visited ++ D ∧
        (scrapeHashtagsGo tc acc hes).examined = acc.examined ++ D ∧
        D.Nodup ∧ ∀ d ∈ D, d ∉ acc.visited := by
  intro hes
  induction hes with
  | nil =>
    intro acc
    exact ⟨[], by simp [scrapeHashtagsGo], by simp [scrapeHashtagsGo],
      List.nodup_nil, by simp⟩
  | cons he hes ih =>
    intro acc
    rw [scrapeHashtagsGo]
    by_cases hc : MAX_ACCOUNTS_PER_SESSION ≤ acc.collected
    · rw [if_pos hc]
      exact ⟨[], by simp, by simp, List.nodup_nil, by simp⟩
    · rw [if_neg hc]
      obtain ⟨D1, h11, h12, h13, h14⟩ := processHashtag_spec tc acc he
      obtain ⟨D2, h21, h22, h23, h24⟩ := ih (processHashtag tc acc he)
      refine ⟨D1 ++ D2, ?_, ?_, ?_, ?_⟩
      · rw [h21, h11, List.append_assoc]
      · rw [h22, h12, List.append_assoc]
      · refine List.Nodup.append h13 h23 ?_
        intro a ha1 ha2
        have := h24 a ha2
        rw [h11] at this
        exact this (List.mem_append_right _ ha1)
      · intro d hd
        rcases List.mem_append.mp hd with hd | hd
        · exact h14 d hd
        · intro hv
          refine h24 d hd ?_
          rw [h11]
          exact List.mem_append_left _ hv

lemma scrapeHashtags_spec (tc : String) (V : List String)
    (hes : List HashtagEvent) :
    (scrapeHashtags tc V hes).visited = V ++ (scrapeHashtags tc V hes).examined ∧
      (scrapeHashtags tc V hes).examined.Nodup ∧
      ∀ d ∈ (scrapeHashtags tc V hes).examined, d ∉ V := by
  obtain ⟨D, h1, h2, h3, h4⟩ := scrapeHashtagsGo_spec tc hes ⟨V, [], 0, [], []⟩
  rw [scrapeHashtags]
  simp only [List.nil_append] at h1 h2
  refine ⟨?_, ?_, ?_⟩
  · rw [h1, h2]
  · rw [h2]
    exact h3
  · intro d hd
    rw [h2] at hd
    exact h4 d hd

lemma visitPhase_vis (s : ScraperState) (e : CycleEvent) :
    (visitPhase s e).visited = s.visited ∧
      (visitPhase s e).examinedAll = s.examinedAll := by
  rw [visitPhase]
  by_cases hg : s.visitIndex < s.scraped.length ∧
      MIN_TIME_BETWEEN_VISITS < e.tVisitCheck - s.lastVisit ∧ e.visitChance
  · rw [if_pos hg]
    cases e.visitOutcome with
    | notFound => exact ⟨rfl, rfl⟩
    | found k => exact ⟨rfl, rfl⟩
  · rw [if_neg hg]
    exact ⟨rfl, rfl⟩

lemma scraperPhase_vis (cap : Nat) (tc : String) (s : ScraperState)
    (e : CycleEvent) :
    ∃ E, (scraperPhase cap tc s e).visited = s.visited ++ E ∧
      (scraperPhase cap tc s e).examinedAll = s.examinedAll ++ E ∧
      E.Nodup ∧ ∀ d ∈ E, d ∉ s.visited := by
  rw [scraperPhase]
  by_cases hg : s.scraped.length < cap ∧
      MIN_TIME_BETWEEN_SCRAPER < e.tScrCheck - s.lastScraper ∧ e.scrChance
  · rw [if_pos hg]
    by_cases hco : e.configOk
    · rw [if_pos hco]
      obtain ⟨h1, h2, h3⟩ := scrapeHashtags_spec tc s.visited e.hashtags
      exact ⟨(scrapeHashtags tc s.visited e.hashtags).examined, h1, rfl, h2, h3⟩
    · rw [if_neg hco]
      exact ⟨[], by simp, by simp, List.nodup_nil, by simp⟩
  · rw [if_neg hg]
    exact ⟨[], by simp, by simp, List.nodup_nil, by simp⟩

lemma scraperStep_vis (cap : Nat) (tc : String) (targets : List String)
    (s : ScraperState) (e : CycleEvent) :
    ∃ E, (scraperStep cap tc targets s e).visited = s.visited ++ E ∧
      (scraperStep cap tc targets s e).examinedAll = s.examinedAll ++ E ∧
      E.Nodup ∧ ∀ d ∈ E, d ∉ s.visited := by
  obtain ⟨E, h1, h2, h3, h4⟩ := scraperPhase_vis cap tc (scrollLikePhase s e) e
  obtain ⟨hv1, hv2⟩ := visitPhase_vis (scraperPhase cap tc (scrollLikePhase s e) e) e
  refine ⟨E, ?_, ?_, h3, h4⟩
  · show (visitPhase (scraperPhase cap tc (scrollLikePhase s e) e) e).visited =
      s.visited ++ E
    rw [hv1, h1]
    rfl
  · show (visitPhase (scraperPhase cap tc (scrollLikePhase s e) e) e).examinedAll =
      s.examinedAll ++ E
    rw [hv2, h2]
    rfl

lemma scraperStep_examined_inv (cap : Nat) (tc : String) (targets : List String)
    (s : ScraperState) (e : CycleEvent)
    (h : s.visited = s.examinedAll ∧ s.examinedAll.Nodup) :
    (scraperStep cap tc targets s e).visited =
        (scraperStep cap tc targets s e).examinedAll ∧
      (scraperStep cap tc targets s e).examinedAll.Nodup := by
  obtain ⟨E, h1, h2, h3, h4⟩ := scraperStep_vis cap tc targets s e
  constructor
  · rw [h1, h2, h.1]
  · rw [h2]
    refine List.Nodup.append h.2 h3 ?_
    intro a ha hb
    exact h4 a hb (h.1 ▸ ha)

lemma scraperRun_examined (dur cap : Nat) (tc : String) (targets : List String)
    (t0 : Nat) :
    ∀ (evs : List CycleEvent) (s : ScraperState),
      s.visited = s.examinedAll ∧ s.examinedAll.Nodup →
      (scraperRun dur cap tc targets t0 s evs).visited =
          (scraperRun dur cap tc targets t0 s evs).examinedAll ∧
        (scraperRun dur cap tc targets t0 s evs).examinedAll.Nodup := by
  intro evs
  induction evs with
  | nil => intro s h; exact h
  | cons e es ih =>
    intro s h
    rw [scraperRun]
    by_cases hc : e.tLoop - t0 < dur ∧ ¬ e.stop
    · rw [if_pos hc]
      exact ih _ (scraperStep_examined_inv cap tc targets s e h)
    · rw [if_neg hc]
      exact h

/-- C5: within one orchestrator session the visited-content set only
grows — across every cycle step the old set is a prefix of the new one, so
its size is non-decreasing and no element is ever removed; the post URLs
examined over a whole run are pairwise distinct (no content item is ever
scraped twice in a session); a reference already in the visited set is
never examined by a scrape call; and a newly examined reference is added
to the set immediately, before (and regardless of) the extraction outcome
— including a post whose extraction fails entirely (`owner = none`). -/
theorem C5_visited_set :
    (∀ (cap : Nat) (tc : String) (targets : List String) (s : ScraperState)
        (e : CycleEvent),
        s.visited.length ≤ (scraperStep cap tc targets s e).visited.length ∧
        ∀ p ∈ s.visited, p ∈ (scraperStep cap tc targets s e).visited) ∧
    (∀ (dur cap : Nat) (tc : String) (targets : List String) (t0 : Nat)
        (evs : List CycleEvent),
        (scraperRun dur cap tc targets t0 (initScraperState t0)
          evs).examinedAll.Nodup) ∧
    (∀ (tc : String) (V : List String) (hes : List HashtagEvent),
        ∀ p ∈ V, p ∉ (scrapeHashtags tc V hes).examined) ∧
    (∀ (tc tag : String) (acc : ScrapeAcc) (url : String) (urls : List String)
        (pe : PostEvent) (pes : List PostEvent),
        acc.collected < MAX_ACCOUNTS_PER_SESSION →
        url ∈ (processPosts tc tag acc (url :: urls) (pe :: pes)).visited) := by
  refine ⟨?_, ?_, ?_, ?_⟩
  · intro cap tc targets s e
    obtain ⟨E, h1, _, _, _⟩ := scraperStep_vis cap tc targets s e
    rw [h1]
    constructor
    · simp
    · intro p hp
      exact List.mem_append_left _ hp
  · intro dur cap tc targets t0 evs
    exact (scraperRun_examined dur cap tc targets t0 evs (initScraperState t0)
      ⟨rfl, List.nodup_nil⟩).2
  · intro tc V hes p hp hmem
    exact (scrapeHashtags_spec tc V hes).2.2 p hmem hp
  · intro tc tag acc url urls pe pes hcap
    rw [processPosts, if_neg (Nat.not_le.mpr hcap)]
    obtain ⟨t, ht⟩ := processPosts_extends tc tag urls pes (processPost tc tag
      { acc with visited := setAdd acc.visited url,
                 examined := acc.examined ++ [url] } pe)
    rw [ht]
    obtain ⟨hv, _⟩ := processPost_fields tc tag
      { acc with visited := setAdd acc.visited url,
                 examined := acc.examined ++ [url] } pe
    rw [hv]
    apply List.mem_append_left
    show url ∈ setAdd acc.visited url
    exact mem_setAdd_self acc.visited url

/-- Witness for `C5_visited_set` at a concrete input: a post whose
extraction fails (`owner = none`) is still added to the visited set. -/
theorem C5_visited_set_witness :
    ((⟨[], [], 0, [], []⟩ : ScrapeAcc).collected < MAX_ACCOUNTS_PER_SESSION) ∧
    "https://www.instagram.com/p/x/" ∈
      (processPosts "car" "cars" ⟨[], [], 0, [], []⟩
        ["https://www.instagram.com/p/x/"] [⟨none, []⟩]).visited :=
  ⟨by decide,
   C5_visited_set.2.2.2 "car" "cars" ⟨[], [], 0, [], []⟩
     "https://www.instagram.com/p/x/" [] ⟨none, []⟩ [] (by decide)⟩

/-! ### Infinite-mode supervisor lemmas and claim -/

lemma restLoop_succ (stopTime restStart restDur fuel clock : Nat) :
    restLoop stopTime restStart restDur (fuel + 1) clock =
      if clock - restStart < restDur ∧ ¬ stopTime ≤ clock then
        restLoop stopTime restStart restDur fuel (clock + 30)
      else clock := rfl

lemma run_infinite_mode_cons (stopTime clock : Nat) (acc : TotalStats)
    (e : InfSessionEvent) (es : List InfSessionEvent) :
    run_infinite_mode stopTime clock acc (e :: es) =
      if stopTime ≤ clock then (acc, clock)
      else
        if ¬ e.shouldContinue ∨ stopTime ≤ clock + e.sessionTime then
          (⟨acc.sessions + 1, acc.scrolls + e.stats.scrolls,
            acc.likes + e.stats.likes, acc.explores + e.stats.explores⟩,
           clock + e.sessionTime)
        else
          if stopTime ≤ restLoop stopTime (clock + e.sessionTime) e.restDur
              e.restDur (clock + e.sessionTime) then
            (⟨acc.sessions + 1, acc.scrolls + e.stats.scrolls,
              acc.likes + e.stats.likes, acc.explores + e.stats.explores⟩,
             restLoop stopTime (clock + e.sessionTime) e.restDur
               e.restDur (clock + e.sessionTime))
          else
            run_infinite_mode stopTime
              (restLoop stopTime (clock + e.sessionTime) e.restDur
                e.restDur (clock + e.sessionTime))
              ⟨acc.sessions + 1, acc.scrolls + e.stats.scrolls,
               acc.likes + e.stats.likes, acc.explores + e.stats.explores⟩ es := rfl

/-- C9: for the infinite-mode supervisor with active range (10,10) and
rest range (5,5), a stop requested during the rest sleep (after the first
session ended, at or before the end of the single 30-second sleep
increment) makes the supervisor terminate at the first poll after that
increment — it starts no second session, the returned cumulative stats
are exactly the one completed session's stats (session count 1), and the
final clock is within one polling increment (30 s) of the stop request. -/
theorem C9_stop_during_rest :
    ∀ (stopTime c0 : Nat) (e : InfSessionEvent) (es : List InfSessionEvent),
      10 ≤ e.activeDur → e.activeDur ≤ 10 →
      5 ≤ e.restDur → e.restDur ≤ 5 →
      e.shouldContinue = true →
      c0 + e.sessionTime < stopTime →
      stopTime ≤ c0 + e.sessionTime + 30 →
      run_infinite_mode stopTime c0 ⟨0, 0, 0, 0⟩ (e :: es) =
        (⟨1, e.stats.scrolls, e.stats.likes, e.stats.explores⟩,
          c0 + e.sessionTime + 30) ∧
      c0 + e.sessionTime + 30 < stopTime + 30 := by
  intro stopTime c0 e es h1 h2 h3 h4 h5 h6 h7
  have hrd : e.restDur = 5 := by omega
  refine ⟨?_, by omega⟩
  have hrest : restLoop stopTime (c0 + e.sessionTime) 5 5 (c0 + e.sessionTime) =
      c0 + e.sessionTime + 30 := by
    rw [restLoop_succ]
    rw [if_pos ⟨by omega, by omega⟩]
    rw [restLoop_succ]
    rw [if_neg (by omega)]
  rw [run_infinite_mode_cons, hrd, h5]
  rw [if_neg (by omega)]
  rw [if_neg (by push_neg; exact ⟨rfl, by omega⟩)]
  rw [hrest]
  rw [if_pos h7]
  simp

/-- Witness for `C9_stop_during_rest` at a concrete input: session of 12
wall seconds, stop requested at clock 20 (during the rest sleep from 12
to 42). -/
theorem C9_stop_during_rest_witness :
    ((10 : Nat) ≤ 10 ∧ (5 : Nat) ≤ 5 ∧ (0 : Nat) + 12 < 20 ∧
      (20 : Nat) ≤ 0 + 12 + 30) ∧
    run_infinite_mode 20 0 ⟨0, 0, 0, 0⟩ [⟨10, 5, 12, ⟨7, 2, 1⟩, true⟩] =
      (⟨1, 7, 2, 1⟩, 0 + 12 + 30) ∧
    (0 : Nat) + 12 + 30 < 20 + 30 :=
  ⟨⟨by decide, by decide, by decide, by decide⟩,
   (C9_stop_during_rest 20 0 ⟨10, 5, 12, ⟨7, 2, 1⟩, true⟩ [] (by decide)
     (by decide) (by decide) (by decide) rfl (by decide) (by decide)).1,
   (C9_stop_during_rest 20 0 ⟨10, 5, 12, ⟨7, 2, 1⟩, true⟩ [] (by decide)
     (by decide) (by decide) (by decide) rfl (by decide) (by decide)).2⟩

end RPA
